import Mathlib

/-!
# Verification of the l7-loadbalancer core against its specification

Shallow embedding of the load balancer's core components:
MurmurHash3-32 and the consistent-hash ring (`include/lb/consistent_hash.h`),
the five-tuple and packet metadata (`include/common/types.h`),
the protocol parser and checksum engine (`include/protocol/ip.h`),
the session manager (`include/lb/session.h`),
the backend registry (`include/lb/real_server.h`),
and the SPSC ring buffer (`include/core/ring_buffer.h`).

Machine integers are modelled as `Nat` with explicit `% 2^w` at the points
where C++ truncation occurs.  The target platform is x86-64 (little-endian),
which fixes the in-memory byte order used by `MurmurHash3::hash_tuple` and
the 16-bit loads of `IpChecksum::calculate`.
-/

namespace L7LB

/-! ## MurmurHash3 (include/lb/consistent_hash.h, class MurmurHash3) -/

/-- `rotl32` from the source: `(x << r) | (x >> (32 - r))` on `uint32_t`. -/
def rotl32 (x r : Nat) : Nat :=
  ((x <<< r) % 2 ^ 32) ||| (x >>> (32 - r))

/-- `fmix32` finalization mix from the source. -/
def fmix32 (h : Nat) : Nat :=
  let h1 := h ^^^ (h >>> 16)
  let h2 := (h1 * 0x85ebca6b) % 2 ^ 32
  let h3 := h2 ^^^ (h2 >>> 13)
  let h4 := (h3 * 0xc2b2ae35) % 2 ^ 32
  h4 ^^^ (h4 >>> 16)

/-- A 32-bit little-endian load of four bytes (`const uint32_t* blocks` on x86-64). -/
def le32 (b0 b1 b2 b3 : Nat) : Nat :=
  b0 + 256 * b1 + 65536 * b2 + 16777216 * b3

/-- One body iteration of `MurmurHash3::hash`: mixes the 32-bit block `k` into `h1`. -/
def murmurBlock (h1 k : Nat) : Nat :=
  let k1 := (k * 0xcc9e2d51) % 2 ^ 32
  let k2 := rotl32 k1 15
  let k3 := (k2 * 0x1b873593) % 2 ^ 32
  let h := h1 ^^^ k3
  let h' := rotl32 h 13
  (h' * 5 + 0xe6546b64) % 2 ^ 32

/-- The body loop of `MurmurHash3::hash`: consumes `len / 4` four-byte blocks
and returns the intermediate state together with the remaining tail bytes. -/
def murmurBody (h1 : Nat) : List Nat → Nat × List Nat
  | b0 :: b1 :: b2 :: b3 :: rest => murmurBody (murmurBlock h1 (le32 b0 b1 b2 b3)) rest
  | rest => (h1, rest)

/-- The tail switch of `MurmurHash3::hash` (`len & 3` leftover bytes, fallthrough). -/
def murmurTail (h1 : Nat) (tail : List Nat) : Nat :=
  match tail with
  | [] => h1
  | _ =>
    let k0 : Nat :=
      match tail with
      | [t0] => t0
      | [t0, t1] => t0 ^^^ (t1 <<< 8)
      | [t0, t1, t2] => t0 ^^^ (t1 <<< 8) ^^^ (t2 <<< 16)
      | _ => 0
    let k1 := (k0 * 0xcc9e2d51) % 2 ^ 32
    let k2 := rotl32 k1 15
    let k3 := (k2 * 0x1b873593) % 2 ^ 32
    h1 ^^^ k3

/-- `MurmurHash3::hash(key, len, seed)` over a byte list: body blocks, tail,
then finalization (`h1 ^= len; h1 = fmix32(h1)`). -/
def murmur3 (bytes : List Nat) (seed : Nat) : Nat :=
  let bt := murmurBody seed bytes
  let h1 := murmurTail bt.1 bt.2
  fmix32 (h1 ^^^ (bytes.length % 2 ^ 32))

/-! ## FiveTuple (include/common/types.h)

`struct FiveTuple` has fields `src_ip dst_ip : uint32`, `src_port dst_port :
uint16`, `protocol : uint8`.  With default alignment `sizeof(FiveTuple) = 16`:
13 field bytes followed by 3 padding bytes.  `MurmurHash3::hash_tuple` hashes
`sizeof(tuple)` bytes, so the padding participates in the hash; the fields
`pad0 pad1 pad2` model those three in-memory padding bytes, which `operator==`
does not compare. -/

structure FiveTuple where
  src_ip : Nat
  dst_ip : Nat
  src_port : Nat
  dst_port : Nat
  protocol : Nat
  pad0 : Nat
  pad1 : Nat
  pad2 : Nat
  deriving DecidableEq, Repr

/-- `FiveTuple::operator==`: field-wise comparison (padding not compared). -/
def eqFiveTuple (a b : FiveTuple) : Bool :=
  a.src_ip == b.src_ip && a.dst_ip == b.dst_ip &&
  a.src_port == b.src_port && a.dst_port == b.dst_port &&
  a.protocol == b.protocol

/-- The 16 in-memory bytes of a `FiveTuple` on x86-64: little-endian field
bytes at offsets 0-12, then the three padding bytes. -/
def tupleBytes (t : FiveTuple) : List Nat :=
  [t.src_ip % 256, t.src_ip / 256 % 256, t.src_ip / 65536 % 256, t.src_ip / 16777216 % 256,
   t.dst_ip % 256, t.dst_ip / 256 % 256, t.dst_ip / 65536 % 256, t.dst_ip / 16777216 % 256,
   t.src_port % 256, t.src_port / 256 % 256,
   t.dst_port % 256, t.dst_port / 256 % 256,
   t.protocol % 256,
   t.pad0 % 256, t.pad1 % 256, t.pad2 % 256]

/-- `MurmurHash3::hash_tuple`: `hash(&tuple, sizeof(tuple))` with seed 0. -/
def hash_tuple (t : FiveTuple) : Nat :=
  murmur3 (tupleBytes t) 0

/-! ## ConsistentHashRing (include/lb/consistent_hash.h)

The ring `std::map<uint32_t, uint32_t>` is modelled as an association list of
`(hash position, server id)` pairs in ascending key order; `RingSorted` is
the `std::map` ordering invariant. -/

/-- Ordering invariant of `std::map`: keys strictly ascending, hence distinct. -/
def RingSorted (ring : List (Nat × Nat)) : Prop :=
  List.Pairwise (fun a b => a.1 < b.1) ring

/-- `ConsistentHashRing::get_server`: fail on the empty ring, otherwise
`lower_bound(hash_tuple t)` (first entry with key ≥ h), wrapping to `begin()`
when no such entry exists. -/
def get_server (ring : List (Nat × Nat)) (t : FiveTuple) : Option Nat :=
  if ring.isEmpty then none
  else
    match ring.find? (fun e => decide (hash_tuple t ≤ e.1)) with
    | some e => some e.2
    | none => ring.head?.map (fun e => e.2)

/-- `ConsistentHashRing::remove_node`: erase every entry whose value is `server_id`. -/
def remove_node (ring : List (Nat × Nat)) (server_id : Nat) : List (Nat × Nat) :=
  ring.filter (fun e => decide (e.2 ≠ server_id))

end L7LB


namespace L7LB

/-! ## Lemmas about `find?` on sorted association lists -/

/-- On a nonempty ring `get_server` reduces to the `lower_bound`-style match. -/
theorem get_server_cons (x : Nat × Nat) (rest : List (Nat × Nat)) (t : FiveTuple) :
    get_server (x :: rest) t =
      match (x :: rest).find? (fun e => decide (hash_tuple t ≤ e.1)) with
      | some e => some e.2
      | none => some x.2 := by
  simp only [get_server, List.isEmpty_cons, Bool.false_eq_true, if_false]
  cases hf : (x :: rest).find? (fun e => decide (hash_tuple t ≤ e.1)) with
  | none => simp
  | some e => rfl

/-- Two entries of a strictly key-sorted list with the same key coincide. -/
theorem ringSorted_key_inj {ring : List (Nat × Nat)} (hs : RingSorted ring)
    {e f : Nat × Nat} (he : e ∈ ring) (hf : f ∈ ring) (hk : e.1 = f.1) : e = f := by
  induction ring with
  | nil => cases he
  | cons x rest ih =>
    rw [RingSorted, List.pairwise_cons] at hs
    rcases List.mem_cons.mp he with rfl | he'
    · rcases List.mem_cons.mp hf with rfl | hf'
      · rfl
      · exact absurd hk (Nat.ne_of_lt (hs.1 f hf'))
    · rcases List.mem_cons.mp hf with rfl | hf'
      · exact absurd hk.symm (Nat.ne_of_lt (hs.1 e he'))
      · exact ih hs.2 he' hf'

/-- On a strictly key-sorted list, `find?` with predicate `h ≤ key` returns an
entry whose key is minimal among the entries with key ≥ h. -/
theorem find?_first_ge {ring : List (Nat × Nat)} {h : Nat} {e : Nat × Nat}
    (hs : RingSorted ring)
    (hf : ring.find? (fun e => decide (h ≤ e.1)) = some e) :
    e ∈ ring ∧ h ≤ e.1 ∧ ∀ e' ∈ ring, h ≤ e'.1 → e.1 ≤ e'.1 := by
  induction ring with
  | nil => simp at hf
  | cons x rest ih =>
    rw [RingSorted, List.pairwise_cons] at hs
    by_cases hp : h ≤ x.1
    · rw [List.find?_cons_of_pos _ (by simpa using hp)] at hf
      injection hf with hf
      subst hf
      refine ⟨List.mem_cons_self _ _, hp, ?_⟩
      intro e' he' _
      rcases List.mem_cons.mp he' with rfl | he'
      · exact Nat.le_refl _
      · exact Nat.le_of_lt (hs.1 e' he')
    · rw [List.find?_cons_of_neg _ (by simpa using hp)] at hf
      obtain ⟨hmem, hge, hmin⟩ := ih hs.2 hf
      refine ⟨List.mem_cons_of_mem _ hmem, hge, ?_⟩
      intro e' he' hge'
      rcases List.mem_cons.mp he' with rfl | he'
      · exact absurd hge' hp
      · exact hmin e' he' hge'

/-- If an entry satisfies `h ≤ key` with minimal key among the satisfiers,
and the ring is strictly key-sorted, `find?` returns exactly that entry. -/
theorem find?_eq_of_first_ge {ring : List (Nat × Nat)} {h : Nat} {e : Nat × Nat}
    (hs : RingSorted ring) (hmem : e ∈ ring) (hge : h ≤ e.1)
    (hmin : ∀ e' ∈ ring, h ≤ e'.1 → e.1 ≤ e'.1) :
    ring.find? (fun e => decide (h ≤ e.1)) = some e := by
  cases hf : ring.find? (fun e => decide (h ≤ e.1)) with
  | none =>
    rw [List.find?_eq_none] at hf
    exact absurd (by simpa using hge) (hf e hmem)
  | some f =>
    obtain ⟨hfmem, hfge, hfmin⟩ := find?_first_ge hs hf
    have hkey : e.1 = f.1 :=
      Nat.le_antisymm (hmin f hfmem hfge) (hfmin e hmem hge)
    rw [ringSorted_key_inj hs hmem hfmem hkey]

/-- C1: `ConsistentHashRing::get_server` computes `h = MurmurHash3::hash_tuple`
and fails exactly on the empty ring; on a nonempty (sorted) ring it returns
the id of the entry with minimal key ≥ h when such an entry exists, and
otherwise wraps around to the id of the entry with the overall smallest key. -/
theorem get_server_spec (ring : List (Nat × Nat)) (t : FiveTuple) (hs : RingSorted ring) :
    (get_server ring t = none ↔ ring = []) ∧
    (∀ e : Nat × Nat, e ∈ ring → hash_tuple t ≤ e.1 →
      (∀ e' ∈ ring, hash_tuple t ≤ e'.1 → e.1 ≤ e'.1) →
      get_server ring t = some e.2) ∧
    ((∀ e' ∈ ring, e'.1 < hash_tuple t) →
      ∀ e : Nat × Nat, e ∈ ring → (∀ e' ∈ ring, e.1 ≤ e'.1) →
      get_server ring t = some e.2) := by
  refine ⟨?_, ?_, ?_⟩
  · constructor
    · intro hnone
      cases ring with
      | nil => rfl
      | cons x rest =>
        rw [get_server_cons] at hnone
        cases hf : List.find? (fun e => decide (hash_tuple t ≤ e.1)) (x :: rest) with
        | none => rw [hf] at hnone; simp at hnone
        | some f => rw [hf] at hnone; simp at hnone
    · rintro rfl; rfl
  · intro e hmem hge hmin
    have hf := find?_eq_of_first_ge hs hmem hge hmin
    cases ring with
    | nil => cases hmem
    | cons x rest => rw [get_server_cons, hf]
  · intro hall e hmem hmin
    have hf : ring.find? (fun e => decide (hash_tuple t ≤ e.1)) = none := by
      rw [List.find?_eq_none]
      intro x hx
      simpa using Nat.not_le.mpr (hall x hx)
    cases ring with
    | nil => cases hmem
    | cons x rest =>
      have hex : e = x := by
        rw [RingSorted, List.pairwise_cons] at hs
        rcases List.mem_cons.mp hmem with rfl | hmem'
        · rfl
        · have h1 : x.1 < e.1 := hs.1 e hmem'
          have h2 : e.1 ≤ x.1 := hmin x (List.mem_cons_self _ _)
          omega
      subst hex
      rw [get_server_cons, hf]

/-- Witness for C1: the empty ring fails, and a one-entry ring whose key is
the maximal 32-bit value (hence ≥ any tuple hash) returns that entry's id. -/
theorem get_server_spec_witness :
    get_server [] ⟨1, 2, 3, 4, 6, 0, 0, 0⟩ = none ∧
    get_server [(4294967295, 9)] ⟨1, 2, 3, 4, 6, 0, 0, 0⟩ = some 9 := by
  constructor
  · exact ((get_server_spec [] ⟨1, 2, 3, 4, 6, 0, 0, 0⟩ (by simp [RingSorted])).1).mpr rfl
  · exact (get_server_spec [(4294967295, 9)] ⟨1, 2, 3, 4, 6, 0, 0, 0⟩
      (by simp [RingSorted])).2.1 (4294967295, 9) (by simp) (by decide)
      (by
        intro e' he' _
        rw [List.mem_singleton] at he'
        subst he'
        exact Nat.le_refl _)

/-- `find?` commutes with a `filter` that keeps the found element:
the entries dropped before it did not satisfy the search predicate. -/
theorem find?_filter_of_find? {α : Type} {p q : α → Bool} {l : List α} {e : α}
    (hf : l.find? p = some e) (hq : q e = true) :
    (l.filter q).find? p = some e := by
  induction l with
  | nil => simp at hf
  | cons x rest ih =>
    by_cases hp : p x = true
    · rw [List.find?_cons_of_pos _ hp] at hf
      injection hf with hf
      subst hf
      rw [List.filter_cons_of_pos hq, List.find?_cons_of_pos _ hp]
    · rw [List.find?_cons_of_neg _ (by simpa using hp)] at hf
      cases hqx : q x with
      | true =>
        rw [List.filter_cons_of_pos hqx, List.find?_cons_of_neg _ (by simpa using hp)]
        exact ih hf
      | false =>
        rw [List.filter_cons_of_neg (by simp [hqx])]
        exact ih hf

/-- If no element satisfies `p`, none does after filtering either. -/
theorem find?_filter_of_none {α : Type} {p q : α → Bool} {l : List α}
    (hf : l.find? p = none) : (l.filter q).find? p = none := by
  rw [List.find?_eq_none] at hf ⊢
  intro x hx
  exact hf x (List.mem_filter.mp hx).1

/-- C2: removing a backend `Y` different from the backend `X` that
`get_server` maps the tuple to leaves the mapping of that tuple unchanged. -/
theorem remove_node_preserves (ring : List (Nat × Nat)) (t : FiveTuple) (X Y : Nat)
    (hX : get_server ring t = some X) (hXY : Y ≠ X) :
    get_server (remove_node ring Y) t = some X := by
  cases ring with
  | nil => simp [get_server] at hX
  | cons x rest =>
    rw [get_server_cons] at hX
    cases hf : (x :: rest).find? (fun e => decide (hash_tuple t ≤ e.1)) with
    | some e =>
      rw [hf] at hX
      injection hX with hX
      have hq : (fun e : Nat × Nat => decide (e.2 ≠ Y)) e = true := by
        simp only [decide_eq_true_eq]
        rw [hX]
        exact fun h => hXY h.symm
      have hff := find?_filter_of_find? (q := fun e : Nat × Nat => decide (e.2 ≠ Y)) hf hq
      rw [remove_node]
      have hmem : e ∈ (x :: rest).filter (fun e => decide (e.2 ≠ Y)) :=
        List.mem_of_find?_eq_some hff
      cases hfil : (x :: rest).filter (fun e : Nat × Nat => decide (e.2 ≠ Y)) with
      | nil => rw [hfil] at hmem; cases hmem
      | cons y ys =>
        rw [hfil] at hff
        rw [get_server_cons, hff]
        show some e.2 = some X
        rw [hX]
    | none =>
      rw [hf] at hX
      simp only [List.head?_cons, Option.map_some] at hX
      injection hX with hX
      have hqx : (fun e : Nat × Nat => decide (e.2 ≠ Y)) x = true := by
        simp only [decide_eq_true_eq]
        rw [hX]
        exact fun h => hXY h.symm
      have hall := List.find?_eq_none.mp hf
      rw [remove_node,
        List.filter_cons_of_pos (p := fun e : Nat × Nat => decide (e.2 ≠ Y)) hqx,
        get_server_cons]
      have hnone : (x :: rest.filter (fun e : Nat × Nat => decide (e.2 ≠ Y))).find?
          (fun e => decide (hash_tuple t ≤ e.1)) = none := by
        rw [List.find?_eq_none]
        intro a ha
        rcases List.mem_cons.mp ha with rfl | ha'
        · exact hall a (List.mem_cons_self _ _)
        · exact hall a (List.mem_cons_of_mem _ (List.mem_filter.mp ha').1)
      rw [hnone]
      show some x.2 = some X
      rw [hX]

/-- Witness for C2: on a two-entry ring mapping the sample tuple to id 1,
removing id 2 leaves the mapping intact. -/
theorem remove_node_preserves_witness :
    get_server (remove_node [(0, 2), (4294967295, 1)] 2) ⟨1, 2, 3, 4, 6, 0, 0, 0⟩ = some 1 :=
  remove_node_preserves [(0, 2), (4294967295, 1)] ⟨1, 2, 3, 4, 6, 0, 0, 0⟩ 1 2
    (by
      rw [get_server_cons, List.find?_cons_of_neg _ (by decide),
        List.find?_cons_of_pos _ (by decide)])
    (by decide)

/-! ## Hash determinism over `operator==` (claim about hash_tuple) -/

/-- Equal fields and equal padding bytes give equal in-memory representations,
hence equal `hash_tuple` values. -/
theorem hash_tuple_eq_of_fields_and_padding {t1 t2 : FiveTuple}
    (hfields : eqFiveTuple t1 t2 = true)
    (hp0 : t1.pad0 = t2.pad0) (hp1 : t1.pad1 = t2.pad1) (hp2 : t1.pad2 = t2.pad2) :
    hash_tuple t1 = hash_tuple t2 := by
  simp only [eqFiveTuple, Bool.and_eq_true, beq_iff_eq] at hfields
  obtain ⟨⟨⟨⟨h1, h2⟩, h3⟩, h4⟩, h5⟩ := hfields
  unfold hash_tuple
  rw [tupleBytes, tupleBytes, h1, h2, h3, h4, h5, hp0, hp1, hp2]

/-- C8 (code evaluation at the failing input): two five-tuples that are equal
under `FiveTuple::operator==` but differ in the first in-memory padding byte
hash to different values, because `MurmurHash3::hash_tuple` hashes all
`sizeof(FiveTuple) = 16` bytes including the padding. -/
theorem hash_tuple_padding_dependent :
    eqFiveTuple ⟨1, 2, 3, 4, 6, 0, 0, 0⟩ ⟨1, 2, 3, 4, 6, 1, 0, 0⟩ = true ∧
    hash_tuple ⟨1, 2, 3, 4, 6, 0, 0, 0⟩ ≠ hash_tuple ⟨1, 2, 3, 4, 6, 1, 0, 0⟩ := by
  decide

/-! ## RealServerManager (include/lb/real_server.h) -/

/-- `ServerStatus` from include/common/types.h. -/
inductive ServerStatus where
  | UP
  | DOWN
  | CHECKING
  deriving DecidableEq, Repr

/-- `struct RealServer` from include/common/types.h. -/
structure RealServer where
  id : Nat
  ip : Nat
  port : Nat
  mac : List Nat
  weight : Nat
  status : ServerStatus
  conn_count : Nat
  total_conn : Nat
  bytes_in : Nat
  bytes_out : Nat
  deriving DecidableEq, Repr

/-- `RealServer::is_available`: `status == ServerStatus::UP`. -/
def is_available (rs : RealServer) : Bool :=
  rs.status == ServerStatus.UP

/-- `RealServerManager` state: the `servers_` unordered map (association list
keyed by server id) and the embedded `hash_ring_`. -/
structure RealServerManager where
  servers : List (Nat × RealServer)
  hash_ring : List (Nat × Nat)
  deriving Repr

/-- `servers_.find(id)` (unordered_map lookup by id). -/
def find_server_entry (ss : List (Nat × RealServer)) (id : Nat) : Option RealServer :=
  (ss.find? (fun e => e.1 == id)).map (fun e => e.2)

/-- `RealServerManager::select_server`: ring lookup, then table lookup, then
the availability check; `nullptr` is modelled as `none`. -/
def select_server (m : RealServerManager) (t : FiveTuple) : Option RealServer :=
  match get_server m.hash_ring t with
  | none => none
  | some sid =>
    match find_server_entry m.servers sid with
    | none => none
    | some rs => if is_available rs then some rs else none

/-- `RealServerManager::set_status`: mutate the status of the entry with the
given id (if present) in place; the ring is untouched. -/
def set_status (m : RealServerManager) (id : Nat) (status : ServerStatus) : RealServerManager :=
  { m with
    servers := m.servers.map (fun e => if e.1 = id then (e.1, { e.2 with status := status }) else e) }

/-- `set_status` rewrites exactly the looked-up entry's status. -/
theorem find_server_entry_map_status (ss : List (Nat × RealServer)) (id : Nat)
    (st : ServerStatus) :
    find_server_entry (ss.map (fun e => if e.1 = id then (e.1, { e.2 with status := st }) else e)) id
      = (find_server_entry ss id).map (fun rs => { rs with status := st }) := by
  induction ss with
  | nil => rfl
  | cons x rest ih =>
    by_cases hx : x.1 = id
    · simp only [find_server_entry, List.map_cons, if_pos hx]
      rw [List.find?_cons_of_pos _ (by simpa using hx),
        List.find?_cons_of_pos _ (by simpa using hx)]
      rfl
    · simp only [find_server_entry, List.map_cons, if_neg hx]
      rw [List.find?_cons_of_neg _ (by simpa using hx),
        List.find?_cons_of_neg _ (by simpa using hx)]
      exact ih

/-- C9: `select_server` returns `nullptr` exactly when the ring lookup fails,
the chosen id is absent from the server table, or the chosen backend's status
is not UP; otherwise it returns the chosen backend.  After
`set_status(id, DOWN)`, every tuple the ring maps to `id` selects nothing. -/
theorem select_server_spec (m : RealServerManager) (t : FiveTuple) :
    (select_server m t = none ↔
      get_server m.hash_ring t = none ∨
      ∃ sid, get_server m.hash_ring t = some sid ∧
        (find_server_entry m.servers sid = none ∨
         ∃ rs, find_server_entry m.servers sid = some rs ∧ rs.status ≠ ServerStatus.UP)) ∧
    (∀ sid rs, get_server m.hash_ring t = some sid →
      find_server_entry m.servers sid = some rs → rs.status = ServerStatus.UP →
      select_server m t = some rs) ∧
    (∀ sid, get_server m.hash_ring t = some sid →
      select_server (set_status m sid ServerStatus.DOWN) t = none) := by
  refine ⟨?_, ?_, ?_⟩
  · cases hg : get_server m.hash_ring t with
    | none => simp [select_server, hg]
    | some sid =>
      cases hfind : find_server_entry m.servers sid with
      | none => simp [select_server, hg, hfind]
      | some rs =>
        cases hst : rs.status with
        | UP => simp [select_server, hg, hfind, is_available, hst]
        | DOWN => simp [select_server, hg, hfind, is_available, hst]
        | CHECKING => simp [select_server, hg, hfind, is_available, hst]
  · intro sid rs hg hfind hst
    simp only [select_server, hg, hfind, is_available, hst]
    rfl
  · intro sid hg
    have hring : (set_status m sid ServerStatus.DOWN).hash_ring = m.hash_ring := rfl
    simp only [select_server, hring, hg, set_status]
    rw [find_server_entry_map_status]
    cases hfind : find_server_entry m.servers sid with
    | none => rfl
    | some rs => simp [is_available]

/-- Witness for C9: a registry with one UP backend on a one-entry ring
selects that backend, and selects nothing after it is set DOWN. -/
theorem select_server_spec_witness :
    select_server ⟨[(1, ⟨1, 11, 80, [0, 0, 0, 0, 0, 1], 100, ServerStatus.UP, 0, 0, 0, 0⟩)],
        [(4294967295, 1)]⟩ ⟨1, 2, 3, 4, 6, 0, 0, 0⟩ =
      some ⟨1, 11, 80, [0, 0, 0, 0, 0, 1], 100, ServerStatus.UP, 0, 0, 0, 0⟩ ∧
    select_server (set_status ⟨[(1, ⟨1, 11, 80, [0, 0, 0, 0, 0, 1], 100, ServerStatus.UP, 0, 0, 0, 0⟩)],
        [(4294967295, 1)]⟩ 1 ServerStatus.DOWN) ⟨1, 2, 3, 4, 6, 0, 0, 0⟩ = none := by
  constructor
  · exact (select_server_spec _ ⟨1, 2, 3, 4, 6, 0, 0, 0⟩).2.1 1 _ (by decide) (by decide) rfl
  · exact (select_server_spec _ ⟨1, 2, 3, 4, 6, 0, 0, 0⟩).2.2 1 (by decide)

/-! ## SessionManager (include/lb/session.h)

The `sessions_` unordered_map keys five-tuples by `FiveTupleHash` with
equality `FiveTuple::operator==` (field-wise); it is modelled as an
association list looked up with `eqFiveTuple`.  The monotonic clock is
passed in explicitly as `now` (nanosecond counts).  Of `Statistics`, the
session manager touches only `total_sessions` and `active_sessions`;
they are carried as the two counter fields. -/

structure Session where
  client_tuple : FiveTuple
  server_tuple : FiveTuple
  real_server_id : Nat
  create_time : Nat
  last_active : Nat
  packets : Nat
  bytes : Nat
  deriving DecidableEq, Repr

/-- `Session::is_expired(timeout_sec)`: `now - last_active > timeout_sec * 10^9`
(unsigned subtraction; the clock is monotone so `now ≥ last_active` holds in
every reachable state). -/
def is_expired (s : Session) (timeout_sec now : Nat) : Bool :=
  decide (now - s.last_active > timeout_sec * 1000000000)

/-- `Session::touch()`: set `last_active` to the current time. -/
def touch (s : Session) (now : Nat) : Session :=
  { s with last_active := now }

structure SessionManager where
  sessions : List (FiveTuple × Session)
  timeout_sec : Nat
  total_sessions : Nat
  active_sessions : Nat
  deriving DecidableEq, Repr

/-- Fresh manager (`SessionManager()` with empty map and zeroed counters). -/
def emptySessionManager (timeout_sec : Nat) : SessionManager :=
  ⟨[], timeout_sec, 0, 0⟩

/-- `sessions_.find(tuple)` under the map's `operator==` key equality. -/
def findSession (l : List (FiveTuple × Session)) (t : FiveTuple) : Option Session :=
  (l.find? (fun e => eqFiveTuple e.1 t)).map (fun e => e.2)

/-- Update the mapped value of the first entry whose key equals `t`. -/
def updateSession (l : List (FiveTuple × Session)) (t : FiveTuple)
    (f : Session → Session) : List (FiveTuple × Session) :=
  match l with
  | [] => []
  | e :: rest =>
    if eqFiveTuple e.1 t then (e.1, f e.2) :: rest
    else e :: updateSession rest t f

/-- Erase the first entry whose key equals `t` (`sessions_.erase(tuple)`). -/
def eraseSession (l : List (FiveTuple × Session)) (t : FiveTuple) :
    List (FiveTuple × Session) :=
  match l with
  | [] => []
  | e :: rest => if eqFiveTuple e.1 t then rest else e :: eraseSession rest t

/-- `SessionManager::lookup`: on a hit, touch the entry and return a copy. -/
def sm_lookup (m : SessionManager) (t : FiveTuple) (now : Nat) :
    Option Session × SessionManager :=
  match findSession m.sessions t with
  | some s =>
    (some (touch s now), { m with sessions := updateSession m.sessions t (fun s => touch s now) })
  | none => (none, m)

/-- `SessionManager::create`: `sessions_[tuple] = session` (assign when the
key exists, insert otherwise) and increment both counters unconditionally.
`server_tuple` is left uninitialized by the C++ code (`Session session;`);
the model fills the default tuple. -/
def sm_create (m : SessionManager) (t : FiveTuple) (server_id now : Nat) : SessionManager :=
  let session : Session := ⟨t, ⟨0, 0, 0, 0, 0, 0, 0, 0⟩, server_id, now, now, 0, 0⟩
  let sessions :=
    if (m.sessions.find? (fun e => eqFiveTuple e.1 t)).isSome then
      updateSession m.sessions t (fun _ => session)
    else m.sessions ++ [(t, session)]
  { m with sessions := sessions,
           total_sessions := m.total_sessions + 1,
           active_sessions := m.active_sessions + 1 }

/-- `SessionManager::update_stats`: on a hit, touch, bump the packet count
and add the byte count; otherwise do nothing. -/
def sm_update_stats (m : SessionManager) (t : FiveTuple) (bytes now : Nat) : SessionManager :=
  match findSession m.sessions t with
  | some _ =>
    let f : Session → Session := fun s =>
      { s with last_active := now, packets := s.packets + 1, bytes := s.bytes + bytes }
    { m with sessions := updateSession m.sessions t f }
  | none => m

/-- `SessionManager::remove`: erase, decrementing `active_sessions` only
when an entry was actually erased. -/
def sm_remove (m : SessionManager) (t : FiveTuple) : SessionManager :=
  if (m.sessions.find? (fun e => eqFiveTuple e.1 t)).isSome then
    { m with sessions := eraseSession m.sessions t,
             active_sessions := m.active_sessions - 1 }
  else m

/-- `SessionManager::cleanup`: erase every expired session, decrementing
`active_sessions` once per erased entry. -/
def sm_cleanup (m : SessionManager) (now : Nat) : SessionManager :=
  { m with
    sessions := m.sessions.filter (fun e => ! is_expired e.2 m.timeout_sec now),
    active_sessions :=
      m.active_sessions - m.sessions.countP (fun e => is_expired e.2 m.timeout_sec now) }

/-- One SessionManager API call, with its clock reading where the source
reads the clock. -/
inductive SMOp where
  | create (t : FiveTuple) (server_id now : Nat)
  | lookup (t : FiveTuple) (now : Nat)
  | update_stats (t : FiveTuple) (bytes now : Nat)
  | remove (t : FiveTuple)
  | cleanup (now : Nat)
  deriving DecidableEq, Repr

def smApply (m : SessionManager) : SMOp → SessionManager
  | .create t sid now => sm_create m t sid now
  | .lookup t now => (sm_lookup m t now).2
  | .update_stats t bytes now => sm_update_stats m t bytes now
  | .remove t => sm_remove m t
  | .cleanup now => sm_cleanup m now

def smRun (m : SessionManager) (ops : List SMOp) : SessionManager :=
  ops.foldl smApply m

/-- An operation is admissible in state `m` unless it is a `create` for a
tuple already present. -/
def freshOk (m : SessionManager) : SMOp → Bool
  | .create t _ _ => (findSession m.sessions t).isNone
  | _ => true

/-- `ops` never calls `create` for a tuple already present at that point. -/
def FreshCreates (m : SessionManager) : List SMOp → Bool
  | [] => true
  | op :: rest => freshOk m op && FreshCreates (smApply m op) rest

theorem updateSession_length (l : List (FiveTuple × Session)) (t : FiveTuple)
    (f : Session → Session) : (updateSession l t f).length = l.length := by
  induction l with
  | nil => rfl
  | cons e rest ih =>
    rw [updateSession]
    by_cases he : eqFiveTuple e.1 t = true
    · rw [if_pos he]; rfl
    · rw [if_neg he]
      simpa using ih

theorem eraseSession_length (l : List (FiveTuple × Session)) (t : FiveTuple)
    (h : (l.find? (fun e => eqFiveTuple e.1 t)).isSome = true) :
    (eraseSession l t).length = l.length - 1 := by
  induction l with
  | nil => simp at h
  | cons e rest ih =>
    rw [eraseSession]
    by_cases he : eqFiveTuple e.1 t = true
    · rw [if_pos he]; simp
    · rw [if_neg he]
      rw [List.find?_cons_of_neg _ (by simpa using he)] at h
      have hrest := ih h
      have hpos : 0 < rest.length := by
        cases rest with
        | nil => simp at h
        | cons _ _ => simp
      simp only [List.length_cons, hrest]
      omega

theorem countP_not_add_countP (p : FiveTuple × Session → Bool)
    (l : List (FiveTuple × Session)) :
    l.countP (fun e => ! p e) + l.countP p = l.length := by
  induction l with
  | nil => rfl
  | cons e rest ih =>
    cases he : p e <;> simp [List.countP_cons, he] <;> omega

/-- One API call preserves `active_sessions = |sessions_|`, provided a
`create` is only issued for an absent tuple. -/
theorem smApply_preserves_counter (m : SessionManager) (op : SMOp)
    (hinv : m.active_sessions = m.sessions.length)
    (hfresh : ∀ t sid now, op = SMOp.create t sid now →
      (findSession m.sessions t).isNone = true) :
    (smApply m op).active_sessions = (smApply m op).sessions.length := by
  cases op with
  | create t sid now =>
    have hnone : m.sessions.find? (fun e => eqFiveTuple e.1 t) = none := by
      have h := hfresh t sid now rfl
      simpa [findSession, Option.isNone_iff_eq_none] using h
    simp only [smApply, sm_create]
    rw [if_neg (by rw [hnone]; simp)]
    simp [hinv]
  | lookup t now =>
    simp only [smApply, sm_lookup]
    cases hf : findSession m.sessions t with
    | none => exact hinv
    | some s => simpa [updateSession_length] using hinv
  | update_stats t bytes now =>
    simp only [smApply, sm_update_stats]
    cases hf : findSession m.sessions t with
    | none => exact hinv
    | some s => simpa [updateSession_length] using hinv
  | remove t =>
    simp only [smApply, sm_remove]
    by_cases hf : (m.sessions.find? (fun e => eqFiveTuple e.1 t)).isSome = true
    · rw [if_pos hf]
      simp only [eraseSession_length m.sessions t hf, hinv]
    · rw [if_neg hf]
      exact hinv
  | cleanup now =>
    simp only [smApply, sm_cleanup]
    have h := countP_not_add_countP (fun e => is_expired e.2 m.timeout_sec now) m.sessions
    rw [← List.countP_eq_length_filter]
    omega

theorem smRun_preserves_counter (ops : List SMOp) :
    ∀ m : SessionManager, m.active_sessions = m.sessions.length →
      FreshCreates m ops = true →
      (smRun m ops).active_sessions = (smRun m ops).sessions.length := by
  induction ops with
  | nil => intro m hinv _; exact hinv
  | cons op rest ih =>
    intro m hinv hfresh
    rw [FreshCreates, Bool.and_eq_true] at hfresh
    have hstep := smApply_preserves_counter m op hinv (by
      intro t sid now heq
      subst heq
      exact hfresh.1)
    exact ih (smApply m op) hstep hfresh.2

/-- C3 (amended): starting from the empty table, after any sequence of
SessionManager operations in which `create` is never called for a tuple
already present, `active_sessions` equals the number of entries in the
session map. -/
theorem active_sessions_eq_map_size (timeout : Nat) (ops : List SMOp)
    (hfresh : FreshCreates (emptySessionManager timeout) ops = true) :
    (smRun (emptySessionManager timeout) ops).active_sessions =
      (smRun (emptySessionManager timeout) ops).sessions.length :=
  smRun_preserves_counter ops (emptySessionManager timeout) rfl hfresh

/-- Witness for C3 (amended): a run exercising all five operations. -/
theorem active_sessions_eq_map_size_witness :
    FreshCreates (emptySessionManager 300)
      [SMOp.create ⟨1, 2, 3, 4, 6, 0, 0, 0⟩ 1 0, SMOp.lookup ⟨1, 2, 3, 4, 6, 0, 0, 0⟩ 1,
       SMOp.update_stats ⟨1, 2, 3, 4, 6, 0, 0, 0⟩ 64 2, SMOp.create ⟨9, 2, 3, 4, 6, 0, 0, 0⟩ 2 3,
       SMOp.remove ⟨1, 2, 3, 4, 6, 0, 0, 0⟩, SMOp.cleanup 4] = true ∧
    (smRun (emptySessionManager 300)
      [SMOp.create ⟨1, 2, 3, 4, 6, 0, 0, 0⟩ 1 0, SMOp.lookup ⟨1, 2, 3, 4, 6, 0, 0, 0⟩ 1,
       SMOp.update_stats ⟨1, 2, 3, 4, 6, 0, 0, 0⟩ 64 2, SMOp.create ⟨9, 2, 3, 4, 6, 0, 0, 0⟩ 2 3,
       SMOp.remove ⟨1, 2, 3, 4, 6, 0, 0, 0⟩, SMOp.cleanup 4]).active_sessions =
    (smRun (emptySessionManager 300)
      [SMOp.create ⟨1, 2, 3, 4, 6, 0, 0, 0⟩ 1 0, SMOp.lookup ⟨1, 2, 3, 4, 6, 0, 0, 0⟩ 1,
       SMOp.update_stats ⟨1, 2, 3, 4, 6, 0, 0, 0⟩ 64 2, SMOp.create ⟨9, 2, 3, 4, 6, 0, 0, 0⟩ 2 3,
       SMOp.remove ⟨1, 2, 3, 4, 6, 0, 0, 0⟩, SMOp.cleanup 4]).sessions.length :=
  ⟨by decide, active_sessions_eq_map_size 300 _ (by decide)⟩

/-- C3 counterexample: two `create` calls for the same tuple leave one map
entry but an `active_sessions` counter of 2, because
`SessionManager::create` assigns through `sessions_[tuple]` (overwriting the
existing entry) while incrementing `active_sessions` unconditionally. -/
theorem active_sessions_ne_map_size_after_double_create :
    (smRun (emptySessionManager 300)
      [SMOp.create ⟨1, 2, 3, 4, 6, 0, 0, 0⟩ 1 0,
       SMOp.create ⟨1, 2, 3, 4, 6, 0, 0, 0⟩ 2 1]).active_sessions = 2 ∧
    (smRun (emptySessionManager 300)
      [SMOp.create ⟨1, 2, 3, 4, 6, 0, 0, 0⟩ 1 0,
       SMOp.create ⟨1, 2, 3, 4, 6, 0, 0, 0⟩ 2 1]).sessions.length = 1 := by
  decide

/-- C10: `SessionManager::update_stats` for a tuple not present in the table
is a no-op: the whole manager state (map, every stored session, counters) is
unchanged. -/
theorem update_stats_absent_noop (m : SessionManager) (t : FiveTuple) (bytes now : Nat)
    (h : findSession m.sessions t = none) :
    sm_update_stats m t bytes now = m := by
  unfold sm_update_stats
  rw [h]

/-- Witness for C10: updating stats for a tuple absent from a one-entry
table changes nothing. -/
theorem update_stats_absent_noop_witness :
    sm_update_stats
      ⟨[(⟨1, 2, 3, 4, 6, 0, 0, 0⟩, ⟨⟨1, 2, 3, 4, 6, 0, 0, 0⟩, ⟨0, 0, 0, 0, 0, 0, 0, 0⟩, 1, 0, 0, 0, 0⟩)],
       300, 1, 1⟩ ⟨9, 9, 9, 9, 17, 0, 0, 0⟩ 64 5 =
      ⟨[(⟨1, 2, 3, 4, 6, 0, 0, 0⟩, ⟨⟨1, 2, 3, 4, 6, 0, 0, 0⟩, ⟨0, 0, 0, 0, 0, 0, 0, 0⟩, 1, 0, 0, 0, 0⟩)],
       300, 1, 1⟩ :=
  update_stats_absent_noop _ ⟨9, 9, 9, 9, 17, 0, 0, 0⟩ 64 5 (by decide)

/-! ## ProtocolParser (include/protocol/ip.h, include/protocol/ethernet.h)

A raw frame is a byte list; byte `i` of the buffer is `pkt.getD i 0` (every
read the parser performs is length-guarded in the source).  Multi-byte reads
through struct pointers are little-endian (x86-64) raw loads; only
`get_ether_type()` byte-swaps via `ntohs`. -/

/-- `ntohs` of the 16-bit field at offset `i` (big-endian interpretation). -/
def be16at (pkt : List Nat) (i : Nat) : Nat :=
  256 * pkt.getD i 0 + pkt.getD (i + 1) 0

/-- Raw (little-endian) 16-bit load at offset `i`, stored without conversion. -/
def le16at (pkt : List Nat) (i : Nat) : Nat :=
  pkt.getD i 0 + 256 * pkt.getD (i + 1) 0

/-- Raw (little-endian) 32-bit load at offset `i`, stored without conversion. -/
def le32at (pkt : List Nat) (i : Nat) : Nat :=
  pkt.getD i 0 + 256 * pkt.getD (i + 1) 0 + 65536 * pkt.getD (i + 2) 0 +
    16777216 * pkt.getD (i + 3) 0

/-- `struct PacketMeta` from include/common/types.h. -/
structure PacketMeta where
  src_mac : List Nat
  dst_mac : List Nat
  ether_type : Nat
  src_ip : Nat
  dst_ip : Nat
  ip_protocol : Nat
  ip_ttl : Nat
  src_port : Nat
  dst_port : Nat
  l2_offset : Nat
  l3_offset : Nat
  l4_offset : Nat
  payload_offset : Nat
  total_len : Nat
  payload_len : Nat
  deriving DecidableEq, Repr

/-- A zeroed `PacketMeta` (the caller-side `PacketMeta meta;` of the tests). -/
def metaDefault : PacketMeta :=
  ⟨[], [], 0, 0, 0, 0, 0, 0, 0, 0, 0, 0, 0, 0, 0⟩

/-- `len - payload_offset` in `size_t` arithmetic, stored into the
`uint16_t payload_len` field. -/
def truncSub16 (len p : Nat) : Nat :=
  ((len + 2 ^ 64 - p) % 2 ^ 64) % 2 ^ 16

/-- IHL nibble of the IPv4 header at offset 14 (`version_ihl & 0x0F`). -/
def ihlOf (pkt : List Nat) : Nat := pkt.getD 14 0 % 16

/-- `l3_offset + ip->get_header_len()`. -/
def l4Of (pkt : List Nat) : Nat := 14 + ihlOf pkt * 4

/-- `tcp->get_header_len()`: `((data_offset >> 4) & 0x0F) * 4`. -/
def tcpHdrLenOf (pkt : List Nat) : Nat :=
  pkt.getD (l4Of pkt + 12) 0 / 16 % 16 * 4

/-- `ProtocolParser::parse(pkt, len, meta)`; `meta` is passed by reference, so
fields the parser does not write keep the caller's values from `meta0`.
Returning `false` is modelled as `none` (the partially written meta is dead in
the source on failure). -/
def parse (pkt : List Nat) (meta0 : PacketMeta) : Option PacketMeta :=
  if pkt.length < 14 then none
  else
    let m1 : PacketMeta :=
      { meta0 with
        dst_mac := pkt.take 6, src_mac := (pkt.drop 6).take 6,
        ether_type := be16at pkt 12, l2_offset := 0, l3_offset := 14 }
    if be16at pkt 12 ≠ 2048 then some m1
    else if pkt.length < 14 + 20 then none
    else
      let m2 : PacketMeta :=
        { m1 with
          src_ip := le32at pkt 26, dst_ip := le32at pkt 30,
          ip_protocol := pkt.getD 23 0, ip_ttl := pkt.getD 22 0,
          l4_offset := l4Of pkt, total_len := pkt.length % 2 ^ 16 }
      if pkt.getD 23 0 = 6 ∧ l4Of pkt + 20 ≤ pkt.length then
        some { m2 with
          src_port := le16at pkt (l4Of pkt), dst_port := le16at pkt (l4Of pkt + 2),
          payload_offset := l4Of pkt + tcpHdrLenOf pkt,
          payload_len := truncSub16 pkt.length (l4Of pkt + tcpHdrLenOf pkt) }
      else if pkt.getD 23 0 = 17 ∧ l4Of pkt + 8 ≤ pkt.length then
        some { m2 with
          src_port := le16at pkt (l4Of pkt), dst_port := le16at pkt (l4Of pkt + 2),
          payload_offset := l4Of pkt + 8,
          payload_len := truncSub16 pkt.length (l4Of pkt + 8) }
      else
        some { m2 with
          src_port := 0, dst_port := 0,
          payload_offset := l4Of pkt,
          payload_len := truncSub16 pkt.length (l4Of pkt) }

/-- C4 (amended): `parse` succeeds iff `len ≥ 14` and, for IPv4 EtherType,
`len ≥ 34` (the Ethernet header plus a minimal 20-byte IPv4 header); the
declared IHL is not validated against `len`.  Non-IPv4 frames of length ≥ 14
succeed with exactly the L2 fields of `meta` populated. -/
theorem parse_success_iff (pkt : List Nat) (meta0 : PacketMeta) :
    ((parse pkt meta0).isSome ↔
      14 ≤ pkt.length ∧ (be16at pkt 12 = 2048 → 34 ≤ pkt.length)) ∧
    (14 ≤ pkt.length → be16at pkt 12 ≠ 2048 →
      parse pkt meta0 = some
        { meta0 with
          dst_mac := pkt.take 6, src_mac := (pkt.drop 6).take 6,
          ether_type := be16at pkt 12, l2_offset := 0, l3_offset := 14 }) := by
  constructor
  · simp only [parse]
    split
    · next h14 =>
      simp only [Option.isSome_none, Bool.false_eq_true, false_iff]
      intro hcon
      exact absurd hcon.1 (by omega)
    · next h14 =>
      split
      · next hip =>
        simp only [Option.isSome_some, true_iff]
        exact ⟨by omega, fun h => absurd h hip⟩
      · next hip =>
        have hip' : be16at pkt 12 = 2048 := not_not.mp hip
        split
        · next h34 =>
          simp only [Option.isSome_none, Bool.false_eq_true, false_iff]
          intro hcon
          exact absurd (hcon.2 hip') (by omega)
        · next h34 =>
          refine iff_of_true ?_ ⟨by omega, fun _ => by omega⟩
          split
          · rfl
          · split
            · rfl
            · rfl
  · intro h14 hneq
    simp only [parse]
    rw [if_neg (Nat.not_lt.mpr h14), if_pos hneq]

/-- A 34-byte IPv4/TCP frame whose IPv4 header declares IHL = 6
(`version_ihl = 0x46`), so the declared header end (14 + 24 = 38) lies
beyond the frame. -/
def pkt34 : List Nat :=
  [0, 0, 0, 0, 0, 0, 0, 0, 0, 0, 0, 0, 8, 0,
   70, 0, 0, 40, 0, 1, 0, 0, 64, 6, 0, 0, 1, 2, 3, 4, 5, 6, 7, 8]

/-- C4 counterexample: `parse` accepts this IPv4 frame although
`len = 34 < 14 + ihl·4 = 38`, refuting the claim that success requires
`len ≥ 14 + ihl·4`. -/
theorem parse_accepts_declared_ihl_beyond_len :
    (parse pkt34 metaDefault).isSome = true ∧
    be16at pkt34 12 = 2048 ∧
    pkt34.length < 14 + (pkt34.getD 14 0 % 16) * 4 := by
  decide

/-- Witness for C4 (amended): a 14-byte ARP frame parses successfully with
the L2 fields populated. -/
theorem parse_success_iff_witness :
    parse [255, 255, 255, 255, 255, 255, 1, 2, 3, 4, 5, 6, 8, 6] metaDefault =
      some { metaDefault with
        dst_mac := [255, 255, 255, 255, 255, 255], src_mac := [1, 2, 3, 4, 5, 6],
        ether_type := 2054, l2_offset := 0, l3_offset := 14 } :=
  (parse_success_iff [255, 255, 255, 255, 255, 255, 1, 2, 3, 4, 5, 6, 8, 6] metaDefault).2
    (by decide) (by decide)

/-- C5 (amended): on every successful IPv4 parse the produced meta satisfies
`l2_offset ≤ l3_offset ≤ l4_offset ≤ payload_offset`; additionally
`payload_offset ≤ total_len` holds provided the frame is at most 65535 bytes
and the declared IPv4 (and, for TCP, declared TCP) header lengths fit within
`len` — without those provisos `payload_offset` can exceed `total_len`. -/
theorem parse_ipv4_offset_chain (pkt : List Nat) (meta0 m : PacketMeta)
    (hp : parse pkt meta0 = some m) (hip : be16at pkt 12 = 2048) :
    (m.l2_offset ≤ m.l3_offset ∧ m.l3_offset ≤ m.l4_offset ∧
      m.l4_offset ≤ m.payload_offset) ∧
    (pkt.length < 2 ^ 16 → l4Of pkt ≤ pkt.length →
      (pkt.getD 23 0 = 6 → l4Of pkt + 20 ≤ pkt.length →
        l4Of pkt + tcpHdrLenOf pkt ≤ pkt.length) →
      m.payload_offset ≤ m.total_len) := by
  simp only [parse] at hp
  split at hp
  · exact absurd hp (by simp)
  · split at hp
    · next hneq => exact absurd hip hneq
    · split at hp
      · exact absurd hp (by simp)
      · next h14 hneq h34 =>
        split at hp
        · next htcp =>
          rw [Option.some_inj] at hp
          subst hp
          refine ⟨⟨?_, ?_, ?_⟩, ?_⟩
          · show (0 : Nat) ≤ 14
            omega
          · show (14 : Nat) ≤ l4Of pkt
            rw [l4Of]
            omega
          · show l4Of pkt ≤ l4Of pkt + tcpHdrLenOf pkt
            omega
          · intro hlen hfit1 hfit2
            show l4Of pkt + tcpHdrLenOf pkt ≤ pkt.length % 2 ^ 16
            rw [Nat.mod_eq_of_lt hlen]
            exact hfit2 htcp.1 htcp.2
        · split at hp
          · next hudp =>
            rw [Option.some_inj] at hp
            subst hp
            refine ⟨⟨?_, ?_, ?_⟩, ?_⟩
            · show (0 : Nat) ≤ 14
              omega
            · show (14 : Nat) ≤ l4Of pkt
              rw [l4Of]
              omega
            · show l4Of pkt ≤ l4Of pkt + 8
              omega
            · intro hlen hfit1 hfit2
              show l4Of pkt + 8 ≤ pkt.length % 2 ^ 16
              rw [Nat.mod_eq_of_lt hlen]
              exact hudp.2
          · rw [Option.some_inj] at hp
            subst hp
            refine ⟨⟨?_, ?_, ?_⟩, ?_⟩
            · show (0 : Nat) ≤ 14
              omega
            · show (14 : Nat) ≤ l4Of pkt
              rw [l4Of]
              omega
            · show l4Of pkt ≤ l4Of pkt
              omega
            · intro hlen hfit1 hfit2
              show l4Of pkt ≤ pkt.length % 2 ^ 16
              rw [Nat.mod_eq_of_lt hlen]
              exact hfit1

/-- C5 counterexample: `parse` succeeds on `pkt34` (an IPv4 frame) with
`payload_offset = 38 > 34 = total_len`, refuting the unconditional chain
`… ≤ payload_offset ≤ total_len`. -/
theorem parse_payload_offset_exceeds_total_len :
    (parse pkt34 metaDefault).map
        (fun m => (m.ether_type, decide (m.payload_offset ≤ m.total_len))) =
      some (2048, false) := by
  decide

/-- Witness for C5 (amended): a well-formed 54-byte IPv4/TCP frame
(IHL = 5, data offset = 5) satisfies the full offset chain. -/
theorem parse_ipv4_offset_chain_witness :
    (let pkt54 : List Nat :=
      [1, 1, 1, 1, 1, 1, 2, 2, 2, 2, 2, 2, 8, 0,
       69, 0, 0, 40, 0, 0, 0, 0, 64, 6, 0, 0, 10, 0, 0, 1, 10, 0, 0, 2,
       31, 144, 0, 80, 0, 0, 0, 0, 0, 0, 0, 0, 80, 2, 255, 255, 0, 0, 0, 0]
     let m54 : PacketMeta :=
      ⟨[2, 2, 2, 2, 2, 2], [1, 1, 1, 1, 1, 1], 2048, 16777226, 33554442, 6, 64,
        36895, 20480, 0, 14, 34, 54, 54, 0⟩
     (m54.l2_offset ≤ m54.l3_offset ∧ m54.l3_offset ≤ m54.l4_offset ∧
       m54.l4_offset ≤ m54.payload_offset) ∧
     (pkt54.length < 2 ^ 16 → l4Of pkt54 ≤ pkt54.length →
       (pkt54.getD 23 0 = 6 → l4Of pkt54 + 20 ≤ pkt54.length →
         l4Of pkt54 + tcpHdrLenOf pkt54 ≤ pkt54.length) →
       m54.payload_offset ≤ m54.total_len)) :=
  parse_ipv4_offset_chain
    [1, 1, 1, 1, 1, 1, 2, 2, 2, 2, 2, 2, 8, 0,
     69, 0, 0, 40, 0, 0, 0, 0, 64, 6, 0, 0, 10, 0, 0, 1, 10, 0, 0, 2,
     31, 144, 0, 80, 0, 0, 0, 0, 0, 0, 0, 0, 80, 2, 255, 255, 0, 0, 0, 0]
    metaDefault
    ⟨[2, 2, 2, 2, 2, 2], [1, 1, 1, 1, 1, 1], 2048, 16777226, 33554442, 6, 64,
      36895, 20480, 0, 14, 34, 54, 54, 0⟩
    (by decide) (by decide)

/-! ## IpChecksum (include/protocol/ip.h)

`calculate` loads the buffer as native-endian `uint16_t` words (little-endian
on x86-64), adds them into a `uint32_t` accumulator, folds the carries with
`while (sum >> 16) sum = (sum & 0xFFFF) + (sum >> 16);` and returns the
complement.  The folding loop is modelled fuel-indexed (`fuel = x` always
suffices because the folded value strictly decreases); `x & 0xFFFF` is
written `x % 65536` and `x >> 16` is written `x / 65536`. -/

def foldCarryAux : Nat → Nat → Nat
  | 0, x => x
  | fuel + 1, x => if x < 65536 then x else foldCarryAux fuel (x % 65536 + x / 65536)

/-- The carry-folding `while` loop of `IpChecksum`. -/
def foldCarry (x : Nat) : Nat := foldCarryAux x x

/-- The word-summing loop of `IpChecksum::calculate`: 16-bit little-endian
words, with a lone trailing byte added as-is. -/
def wordSum : List Nat → Nat
  | b0 :: b1 :: rest => b0 + 256 * b1 + wordSum rest
  | [b] => b
  | [] => 0

/-- `IpChecksum::calculate(data, len)`: fold the 32-bit accumulator and
return `(uint16_t)~sum`. -/
def calculate (bytes : List Nat) : Nat :=
  65535 - foldCarry (wordSum bytes % 2 ^ 32)

/-- `IpChecksum::incremental_update(old_sum, old_val, new_val)`:
`~x & 0xFFFF` on a `uint16_t` is `65535 - x`. -/
def incremental_update (old_sum old_val new_val : Nat) : Nat :=
  65535 - foldCarry ((65535 - old_sum % 65536) + (65535 - old_val % 65536) + new_val % 65536)

/-- The 16-bit little-endian field at aligned word position `i`. -/
def getWord16 : List Nat → Nat → Nat
  | b0 :: b1 :: _, 0 => b0 + 256 * b1
  | _ :: _ :: rest, i + 1 => getWord16 rest i
  | _, _ => 0

/-- The header with the 16-bit field at aligned word position `i` replaced
by `v` (little-endian byte order, as `calculate` reads it). -/
def setWord16 : List Nat → Nat → Nat → List Nat
  | _ :: _ :: rest, 0, v => v % 256 :: v / 256 % 256 :: rest
  | b0 :: b1 :: rest, i + 1, v => b0 :: b1 :: setWord16 rest i v
  | l, _, _ => l

theorem foldCarryAux_char (fuel : Nat) :
    ∀ x : Nat, x ≤ fuel →
      foldCarryAux fuel x =
        if x = 0 then 0 else if x % 65535 = 0 then 65535 else x % 65535 := by
  induction fuel with
  | zero =>
    intro x hx
    interval_cases x
    rfl
  | succ fuel ih =>
    intro x hx
    rw [foldCarryAux]
    by_cases hsmall : x < 65536
    · rw [if_pos hsmall]
      split_ifs <;> omega
    · rw [if_neg hsmall]
      have hless : x % 65536 + x / 65536 < x := by omega
      rw [ih (x % 65536 + x / 65536) (by omega)]
      split_ifs <;> omega

theorem foldCarry_char (x : Nat) :
    foldCarry x = if x = 0 then 0 else if x % 65535 = 0 then 65535 else x % 65535 :=
  foldCarryAux_char x x (Nat.le_refl x)

theorem foldCarry_le (x : Nat) : foldCarry x ≤ 65535 := by
  rw [foldCarry_char]
  split_ifs <;> omega

theorem foldCarry_mod (x : Nat) : foldCarry x % 65535 = x % 65535 := by
  rw [foldCarry_char]
  split_ifs <;> omega

theorem foldCarry_eq_zero_iff (x : Nat) : foldCarry x = 0 ↔ x = 0 := by
  rw [foldCarry_char]
  split_ifs with h1 h2
  · simp [h1]
  · exact iff_of_false (by decide) h1
  · exact iff_of_false h2 h1

/-- The fold of a positive number is determined by its residue mod 65535. -/
theorem foldCarry_congr {x y : Nat} (hmod : x % 65535 = y % 65535)
    (hx : x ≠ 0) (hy : y ≠ 0) : foldCarry x = foldCarry y := by
  rw [foldCarry_char, foldCarry_char]
  split_ifs <;> omega

theorem wordSum_le : ∀ l : List Nat, (∀ b ∈ l, b < 256) → wordSum l ≤ 32768 * l.length
  | [] , _ => by simp [wordSum]
  | [b], h => by
    have hb := h b (List.mem_singleton_self b)
    simp only [wordSum, List.length_singleton]
    omega
  | b0 :: b1 :: rest, h => by
    have ih := wordSum_le rest (fun b hb => h b (by simp [hb]))
    have h0 := h b0 (by simp)
    have h1 := h b1 (by simp)
    simp only [wordSum, List.length_cons]
    omega

theorem getWord16_le : ∀ (l : List Nat) (i : Nat), (∀ b ∈ l, b < 256) →
    2 * i + 1 < l.length → getWord16 l i ≤ 65535
  | b0 :: b1 :: rest, 0, h, _ => by
    have h0 := h b0 (by simp)
    have h1 := h b1 (by simp)
    simp only [getWord16]
    omega
  | b0 :: b1 :: rest, i + 1, h, hpos => by
    simp only [getWord16]
    exact getWord16_le rest i (fun b hb => h b (by simp [hb]))
      (by simp only [List.length_cons] at hpos; omega)
  | [], i, _, hpos => by simp at hpos
  | [b], 0, _, hpos => by simp at hpos
  | [b], i + 1, _, hpos => by simp at hpos

theorem getWord16_le_wordSum : ∀ (l : List Nat) (i : Nat),
    getWord16 l i ≤ wordSum l
  | b0 :: b1 :: rest, 0 => by
    simp only [getWord16, wordSum]
    omega
  | b0 :: b1 :: rest, i + 1 => by
    simp only [getWord16, wordSum]
    have := getWord16_le_wordSum rest i
    omega
  | [], _ => by simp [getWord16]
  | [b], 0 => by simp [getWord16]
  | [b], _ + 1 => by simp [getWord16]

/-- Replacing the field at word position `i` changes the word sum by
`new - old`: `wordSum (set) + old = wordSum + new`. -/
theorem wordSum_setWord16 : ∀ (l : List Nat) (i v : Nat),
    2 * i + 1 < l.length → v < 65536 →
    wordSum (setWord16 l i v) + getWord16 l i = wordSum l + v
  | b0 :: b1 :: rest, 0, v, _, hv => by
    simp only [setWord16, getWord16, wordSum]
    omega
  | b0 :: b1 :: rest, i + 1, v, hpos, hv => by
    simp only [setWord16, getWord16, wordSum]
    have ih := wordSum_setWord16 rest i v
      (by simp only [List.length_cons] at hpos; omega) hv
    omega
  | [], i, v, hpos, _ => by simp at hpos
  | [b], 0, v, hpos, _ => by simp at hpos
  | [b], i + 1, v, hpos, _ => by simp at hpos

/-- C6 (amended): for an even-length header of at most 65536 bytes whose
16-bit field at aligned position `i` is rewritten to `new_val`,
`incremental_update(calculate h0, old, new)` equals a full recompute of the
modified header, provided the modified header is not all-zero (in the
all-zero case the incremental result is `0x0000` while the recompute gives
`0xFFFF`, the one's-complement `-0` / `+0` ambiguity). -/
theorem incremental_update_eq_recompute (h0 : List Nat) (i new_val : Nat)
    (hbytes : ∀ b ∈ h0, b < 256) (hlen : h0.length ≤ 65536)
    (heven : h0.length % 2 = 0)
    (hpos : 2 * i + 1 < h0.length) (hnew : new_val < 65536)
    (hnz : wordSum (setWord16 h0 i new_val) ≠ 0) :
    incremental_update (calculate h0) (getWord16 h0 i) new_val =
      calculate (setWord16 h0 i new_val) := by
  have hSle : wordSum h0 ≤ 32768 * h0.length := wordSum_le h0 hbytes
  have hS32 : wordSum h0 % 2 ^ 32 = wordSum h0 := Nat.mod_eq_of_lt (by omega)
  have hrel : wordSum (setWord16 h0 i new_val) + getWord16 h0 i = wordSum h0 + new_val :=
    wordSum_setWord16 h0 i new_val hpos hnew
  have hS'32 : wordSum (setWord16 h0 i new_val) % 2 ^ 32 =
      wordSum (setWord16 h0 i new_val) := Nat.mod_eq_of_lt (by omega)
  have holdle : getWord16 h0 i ≤ 65535 := getWord16_le h0 i hbytes hpos
  have holdS : getWord16 h0 i ≤ wordSum h0 := getWord16_le_wordSum h0 i
  have hfcle : foldCarry (wordSum h0) ≤ 65535 := foldCarry_le (wordSum h0)
  have hfcmod : foldCarry (wordSum h0) % 65535 = wordSum h0 % 65535 :=
    foldCarry_mod (wordSum h0)
  simp only [calculate, incremental_update]
  rw [hS32, hS'32]
  have h1 : (65535 - foldCarry (wordSum h0)) % 65536 = 65535 - foldCarry (wordSum h0) :=
    Nat.mod_eq_of_lt (by omega)
  have h2 : getWord16 h0 i % 65536 = getWord16 h0 i := Nat.mod_eq_of_lt (by omega)
  have h3 : new_val % 65536 = new_val := Nat.mod_eq_of_lt (by omega)
  rw [h1, h2, h3]
  have h4 : 65535 - (65535 - foldCarry (wordSum h0)) = foldCarry (wordSum h0) := by omega
  rw [h4]
  have hTnz : foldCarry (wordSum h0) + (65535 - getWord16 h0 i) + new_val ≠ 0 := by
    by_cases hov : getWord16 h0 i = 65535
    · have hfc : foldCarry (wordSum h0) ≠ 0 := fun hc =>
        (by omega : wordSum h0 ≠ 0) ((foldCarry_eq_zero_iff (wordSum h0)).mp hc)
      omega
    · omega
  have hcong : (foldCarry (wordSum h0) + (65535 - getWord16 h0 i) + new_val) % 65535 =
      wordSum (setWord16 h0 i new_val) % 65535 := by omega
  rw [foldCarry_congr hcong hTnz hnz]

/-- C6 counterexample: for the all-zero two-byte header and a rewrite of its
only field to the same value 0, the incremental update yields 0x0000 while
the full recompute yields 0xFFFF. -/
theorem incremental_update_all_zero_mismatch :
    incremental_update (calculate [0, 0]) (getWord16 [0, 0] 0) 0 = 0 ∧
    calculate (setWord16 [0, 0] 0 0) = 65535 := by
  decide

/-- Witness for C6 (amended): rewriting word 1 of the header
`[0x45, 0x00, 0x01, 0x02]` to 500 matches a full recompute. -/
theorem incremental_update_eq_recompute_witness :
    incremental_update (calculate [69, 0, 1, 2]) (getWord16 [69, 0, 1, 2] 1) 500 =
      calculate (setWord16 [69, 0, 1, 2] 1 500) :=
  incremental_update_eq_recompute [69, 0, 1, 2] 1 500 (by decide) (by decide) (by decide)
    (by decide) (by decide) (by decide)

/-! ## SPSCRingBuffer (include/core/ring_buffer.h)

The template parameter `Size` is a compile-time power of two
(`static_assert((Size & (Size-1)) == 0)`, `Size >= 2`), and the index
arithmetic uses the mask `& (Size - 1)`.  The state is the buffer vector and
the `head_` / `tail_` indices (always kept below `Size`).  Executed
sequentially (one operation at a time), the atomics are plain reads/writes. -/

structure SPSCState (α : Type) where
  buf : List α
  head : Nat
  tail : Nat
  deriving DecidableEq, Repr

/-- The constructed buffer: `Size` value-initialized slots, `head_ = tail_ = 0`. -/
def spscInit (α : Type) (S : Nat) (a0 : α) : SPSCState α :=
  ⟨List.replicate S a0, 0, 0⟩

/-- `SPSCRingBuffer::push`: full when `(tail + 1) & (Size-1) == head`. -/
def spscPush {α : Type} (S : Nat) (s : SPSCState α) (x : α) : Bool × SPSCState α :=
  let next := (s.tail + 1) &&& (S - 1)
  if next = s.head then (false, s)
  else (true, ⟨s.buf.set s.tail x, s.head, next⟩)

/-- `SPSCRingBuffer::pop`: empty when `head == tail`; otherwise reads
`buffer_[head]` and advances `head`. -/
def spscPop {α : Type} (S : Nat) (a0 : α) (s : SPSCState α) :
    Bool × Option α × SPSCState α :=
  if s.head = s.tail then (false, none, s)
  else (true, some (s.buf.getD s.head a0), ⟨s.buf, (s.head + 1) &&& (S - 1), s.tail⟩)

/-- Index invariant maintained by the operations. -/
def SPSCInv {α : Type} (S : Nat) (s : SPSCState α) : Prop :=
  s.buf.length = S ∧ s.head < S ∧ s.tail < S

/-- The pending items, oldest first: slots `head, head+1, …, tail-1` (mod `S`). -/
def absQueue {α : Type} (S : Nat) (a0 : α) (s : SPSCState α) : List α :=
  (List.range ((s.tail + S - s.head) % S)).map (fun i => s.buf.getD ((s.head + i) % S) a0)

/-- Reference model: a bounded FIFO queue of capacity `cap = S - 1`. -/
def queuePush {α : Type} (cap : Nat) (q : List α) (x : α) : Bool × List α :=
  if q.length = cap then (false, q) else (true, q ++ [x])

def queuePop {α : Type} (q : List α) : Bool × Option α × List α :=
  match q with
  | [] => (false, none, [])
  | x :: rest => (true, some x, rest)

inductive RingOp (α : Type) where
  | push (x : α)
  | pop
  deriving DecidableEq, Repr

/-- Run a sequence of operations on the SPSC ring, collecting each
operation's result (`push` yields its boolean, `pop` its boolean and item). -/
def spscRun {α : Type} (S : Nat) (a0 : α) (s : SPSCState α) :
    List (RingOp α) → List (Bool × Option α) × SPSCState α
  | [] => ([], s)
  | RingOp.push x :: rest =>
    let r := spscPush S s x
    let r2 := spscRun S a0 r.2 rest
    ((r.1, none) :: r2.1, r2.2)
  | RingOp.pop :: rest =>
    let r := spscPop S a0 s
    let r2 := spscRun S a0 r.2.2 rest
    ((r.1, r.2.1) :: r2.1, r2.2)

/-- Run the same operations on the reference bounded queue. -/
def queueRun {α : Type} (cap : Nat) (q : List α) :
    List (RingOp α) → List (Bool × Option α) × List α
  | [] => ([], q)
  | RingOp.push x :: rest =>
    let r := queuePush cap q x
    let r2 := queueRun cap r.2 rest
    ((r.1, none) :: r2.1, r2.2)
  | RingOp.pop :: rest =>
    let r := queuePop q
    let r2 := queueRun cap r.2.2 rest
    ((r.1, r.2.1) :: r2.1, r2.2)

/-- For a power-of-two `S`, the mask `& (S - 1)` of the source is `% S`. -/
theorem and_two_pow_sub_one_eq_mod (x k : Nat) : x &&& (2 ^ k - 1) = x % 2 ^ k := by
  apply Nat.eq_of_testBit_eq
  intro i
  rw [Nat.testBit_and, Nat.testBit_two_pow_sub_one, Nat.testBit_mod_two_pow]
  exact Bool.and_comm _ _

theorem size_eq (S h t : Nat) (hh : h < S) (ht : t < S) :
    (t + S - h) % S = if h ≤ t then t - h else t + S - h := by
  by_cases hle : h ≤ t
  · rw [if_pos hle]
    have heq : t + S - h = (t - h) + S := by omega
    rw [heq, Nat.add_mod_right]
    exact Nat.mod_eq_of_lt (by omega)
  · rw [if_neg hle]
    exact Nat.mod_eq_of_lt (by omega)

theorem succ_mod_eq (S t : Nat) (ht : t < S) :
    (t + 1) % S = if t + 1 = S then 0 else t + 1 := by
  by_cases h1 : t + 1 = S
  · rw [if_pos h1, h1, Nat.mod_self]
  · rw [if_neg h1]
    exact Nat.mod_eq_of_lt (by omega)

theorem add_mod_eq_iff (S h t i : Nat) (hh : h < S) (ht : t < S) (hi : i < S) :
    ((h + i) % S = t ↔ i = (t + S - h) % S) := by
  have hmod : (h + i) % S = if h + i < S then h + i else h + i - S := by
    by_cases hc : h + i < S
    · rw [if_pos hc]
      exact Nat.mod_eq_of_lt hc
    · rw [if_neg hc, Nat.mod_eq_sub_mod (by omega)]
      exact Nat.mod_eq_of_lt (by omega)
  rw [hmod, size_eq S h t hh ht]
  split_ifs <;> omega

theorem full_iff (S h t : Nat) (hh : h < S) (ht : t < S) :
    (t + 1) % S = h ↔ (t + S - h) % S = S - 1 := by
  rw [succ_mod_eq S t ht, size_eq S h t hh ht]
  split_ifs <;> (constructor <;> intro <;> omega)

theorem size_succ (S h t : Nat) (hh : h < S) (ht : t < S) (hne : (t + 1) % S ≠ h) :
    ((t + 1) % S + S - h) % S = (t + S - h) % S + 1 := by
  have h3 := size_eq S h ((t + 1) % S) hh (Nat.mod_lt _ (by omega))
  rw [h3, size_eq S h t hh ht]
  rw [succ_mod_eq S t ht] at hne ⊢
  split_ifs at hne ⊢ <;> omega

theorem size_pred (S h t : Nat) (hh : h < S) (ht : t < S) (hne : h ≠ t) :
    (t + S - (h + 1) % S) % S + 1 = (t + S - h) % S := by
  have h3 := size_eq S ((h + 1) % S) t (Nat.mod_lt _ (by omega)) ht
  rw [h3, size_eq S h t hh ht]
  rw [succ_mod_eq S h hh] at h3 ⊢
  split_ifs <;> omega

/-- `push` simulates the bounded queue: same result, invariant preserved,
and the pending-item abstraction tracks `queuePush`. -/
theorem spscPush_sim {α : Type} (S : Nat) (a0 : α) (s : SPSCState α) (x : α) (k : Nat)
    (hS : S = 2 ^ k) (hinv : SPSCInv S s) :
    (spscPush S s x).1 = (queuePush (S - 1) (absQueue S a0 s) x).1 ∧
    SPSCInv S (spscPush S s x).2 ∧
    absQueue S a0 (spscPush S s x).2 = (queuePush (S - 1) (absQueue S a0 s) x).2 := by
  obtain ⟨hlen, hh, ht⟩ := hinv
  have hS0 : 0 < S := by rw [hS]; positivity
  have hmask : (s.tail + 1) &&& (S - 1) = (s.tail + 1) % S := by
    rw [hS]
    exact and_two_pow_sub_one_eq_mod (s.tail + 1) k
  have habslen : (absQueue S a0 s).length = (s.tail + S - s.head) % S := by
    rw [absQueue, List.length_map, List.length_range]
  by_cases hfull : (s.tail + 1) % S = s.head
  · have hqfull : (absQueue S a0 s).length = S - 1 := by
      rw [habslen]
      exact (full_iff S s.head s.tail hh ht).mp hfull
    rw [spscPush, queuePush, if_pos hqfull]
    rw [hmask, if_pos hfull]
    exact ⟨rfl, ⟨hlen, hh, ht⟩, rfl⟩
  · have hqnotfull : ¬ (absQueue S a0 s).length = S - 1 := by
      rw [habslen]
      exact fun hq => hfull ((full_iff S s.head s.tail hh ht).mpr hq)
    rw [spscPush, queuePush, if_neg hqnotfull]
    rw [hmask, if_neg hfull]
    refine ⟨rfl, ⟨by simpa using hlen, hh, Nat.mod_lt _ hS0⟩, ?_⟩
    have hsize := size_succ S s.head s.tail hh ht hfull
    show (List.range (((s.tail + 1) % S + S - s.head) % S)).map
        (fun i => (s.buf.set s.tail x).getD ((s.head + i) % S) a0) =
      (absQueue S a0 s) ++ [x]
    rw [hsize, List.range_succ, List.map_append, absQueue]
    congr 1
    · apply List.map_congr_left
      intro i hi
      rw [List.mem_range] at hi
      have hiS : i < S := by
        have := Nat.mod_lt (s.tail + S - s.head) hS0
        omega
      have hne : (s.head + i) % S ≠ s.tail := by
        intro hcon
        have := (add_mod_eq_iff S s.head s.tail i hh ht hiS).mp hcon
        omega
      simp only [List.getD_eq_getElem?_getD]
      rw [List.getElem?_set_ne (Ne.symm hne)]
    · have htt : (s.head + (s.tail + S - s.head) % S) % S = s.tail :=
        (add_mod_eq_iff S s.head s.tail _ hh ht (Nat.mod_lt _ hS0)).mpr rfl
      simp only [List.map_cons, List.map_nil, htt]
      simp only [List.getD_eq_getElem?_getD]
      rw [List.getElem?_set_self (by omega)]
      rfl

/-- `pop` simulates the bounded queue. -/
theorem spscPop_sim {α : Type} (S : Nat) (a0 : α) (s : SPSCState α) (k : Nat)
    (hS : S = 2 ^ k) (hinv : SPSCInv S s) :
    (spscPop S a0 s).1 = (queuePop (absQueue S a0 s)).1 ∧
    (spscPop S a0 s).2.1 = (queuePop (absQueue S a0 s)).2.1 ∧
    SPSCInv S (spscPop S a0 s).2.2 ∧
    absQueue S a0 (spscPop S a0 s).2.2 = (queuePop (absQueue S a0 s)).2.2 := by
  obtain ⟨hlen, hh, ht⟩ := hinv
  have hS0 : 0 < S := by rw [hS]; positivity
  have hmask : (s.head + 1) &&& (S - 1) = (s.head + 1) % S := by
    rw [hS]
    exact and_two_pow_sub_one_eq_mod (s.head + 1) k
  by_cases hempty : s.head = s.tail
  · have habs : absQueue S a0 s = [] := by
      rw [absQueue, size_eq S s.head s.tail hh ht, if_pos (by omega), hempty, Nat.sub_self]
      rfl
    rw [spscPop, if_pos hempty, habs, queuePop]
    exact ⟨rfl, rfl, ⟨hlen, hh, ht⟩, rfl⟩
  · have hsz : (s.tail + S - s.head) % S ≠ 0 := by
      rw [size_eq S s.head s.tail hh ht]
      split_ifs <;> omega
    obtain ⟨m, hm⟩ : ∃ m, (s.tail + S - s.head) % S = m + 1 :=
      ⟨(s.tail + S - s.head) % S - 1, by omega⟩
    have habs : absQueue S a0 s =
        s.buf.getD s.head a0 ::
          (List.range m).map (fun i => s.buf.getD ((s.head + Nat.succ i) % S) a0) := by
      rw [absQueue, hm, List.range_succ_eq_map]
      simp only [List.map_cons, List.map_map, Nat.add_zero, Nat.mod_eq_of_lt hh]
      rfl
    rw [spscPop, if_neg hempty, hmask, habs, queuePop]
    refine ⟨rfl, rfl, ⟨hlen, Nat.mod_lt _ hS0, ht⟩, ?_⟩
    have hsize : (s.tail + S - (s.head + 1) % S) % S = m := by
      have := size_pred S s.head s.tail hh ht hempty
      omega
    show (List.range ((s.tail + S - (s.head + 1) % S) % S)).map
        (fun i => s.buf.getD (((s.head + 1) % S + i) % S) a0) = _
    rw [hsize]
    apply List.map_congr_left
    intro i _
    rw [Nat.mod_add_mod]
    have harith : s.head + 1 + i = s.head + Nat.succ i := by omega
    rw [harith]

/-- Sequential runs of the SPSC ring refine the bounded FIFO queue. -/
theorem spscRun_sim {α : Type} (S k : Nat) (hS : S = 2 ^ k) (a0 : α) :
    ∀ (ops : List (RingOp α)) (s : SPSCState α), SPSCInv S s →
      (spscRun S a0 s ops).1 = (queueRun (S - 1) (absQueue S a0 s) ops).1
  | [], _, _ => rfl
  | RingOp.push x :: rest, s, hinv => by
    obtain ⟨hb, hinv', habs'⟩ := spscPush_sim S a0 s x k hS hinv
    have ih := spscRun_sim S k hS a0 rest (spscPush S s x).2 hinv'
    simp only [spscRun, queueRun]
    rw [hb, ih, habs']
  | RingOp.pop :: rest, s, hinv => by
    obtain ⟨hb, hv, hinv', habs'⟩ := spscPop_sim S a0 s k hS hinv
    have ih := spscRun_sim S k hS a0 rest (spscPop S a0 s).2.2 hinv'
    simp only [spscRun, queueRun]
    rw [hb, hv, ih, habs']

/-- C7: for the power-of-two-sized SPSC ring buffer, (a) a push performed
with `S - 1` items pending fails and changes nothing, (b) a pop on an empty
buffer fails, (c) every sequential run from the empty buffer produces
exactly the results of the bounded FIFO queue of capacity `S - 1` — so the
popped values are the successfully pushed values in FIFO order — and (d)
the concrete capacity-4 wrap-around scenario behaves as specified. -/
theorem spsc_fifo_spec :
    (∀ (α : Type) (a0 : α) (k S : Nat), S = 2 ^ k →
      (∀ (s : SPSCState α) (x : α), SPSCInv S s →
        (absQueue S a0 s).length = S - 1 → spscPush S s x = (false, s)) ∧
      (∀ s : SPSCState α, s.head = s.tail → spscPop S a0 s = (false, none, s)) ∧
      (∀ ops : List (RingOp α),
        (spscRun S a0 (spscInit α S a0) ops).1 = (queueRun (S - 1) [] ops).1)) ∧
    (spscRun 4 (0 : Nat) (spscInit Nat 4 0)
        [RingOp.push 1, RingOp.push 2, RingOp.push 3, RingOp.push 4,
         RingOp.pop, RingOp.pop, RingOp.pop,
         RingOp.push 5, RingOp.push 6, RingOp.push 7,
         RingOp.pop, RingOp.pop, RingOp.pop]).1 =
      [(true, none), (true, none), (true, none), (false, none),
       (true, some 1), (true, some 2), (true, some 3),
       (true, none), (true, none), (true, none),
       (true, some 5), (true, some 6), (true, some 7)] := by
  constructor
  · intro α a0 k S hS
    have hS0 : 0 < S := by rw [hS]; positivity
    refine ⟨?_, ?_, ?_⟩
    · intro s x hinv hflen
      obtain ⟨hlen, hh, ht⟩ := hinv
      rw [absQueue, List.length_map, List.length_range] at hflen
      have hfull : (s.tail + 1) % S = s.head :=
        (full_iff S s.head s.tail hh ht).mpr hflen
      have hmask : (s.tail + 1) &&& (S - 1) = (s.tail + 1) % S := by
        rw [hS]
        exact and_two_pow_sub_one_eq_mod (s.tail + 1) k
      rw [spscPush, hmask, if_pos hfull]
    · intro s hemp
      rw [spscPop, if_pos hemp]
    · intro ops
      have hinv0 : SPSCInv S (spscInit α S a0) :=
        ⟨by rw [spscInit]; exact List.length_replicate S a0, hS0, hS0⟩
      have habs0 : absQueue S a0 (spscInit α S a0) = [] := by
        rw [absQueue, spscInit]
        simp [Nat.mod_self]
      rw [spscRun_sim S k hS a0 ops _ hinv0, habs0]
  · decide

/-- Witness for C7: a pop from the freshly initialized capacity-4 buffer
fails and leaves the state unchanged. -/
theorem spsc_fifo_spec_witness :
    spscPop 4 (0 : Nat) (spscInit Nat 4 0) = (false, none, spscInit Nat 4 0) :=
  (spsc_fifo_spec.1 Nat 0 2 4 rfl).2.1 (spscInit Nat 4 0) rfl

end L7LB
